import Mathlib

/-!
Verification of the `krylov` GMRES driver (`src/krylov/gmres.py`).

This file gives a shallow embedding of the preconditioned GMRES driver
`gmres` and the restarted-solver wrapper `_RestartedSolver` from
`src/krylov/gmres.py`, together with models of the helper components the
driver imports (`Arnoldi`, `givens`, the `Identity`/`Product` operator
helpers and the error classes), whose source files are not part of the
source tree and are therefore modelled from the specification document.

Scalars are rationals.  The square root (`numpy.sqrt`) and the inner
product are caller/library-supplied primitives in the original program, so
both are threaded through the embedding as explicit function parameters.
The embedding instruments the run with application counters for the
operator and the preconditioners (ghost data used by the theorems), and
returns the final solver state as ghost fields of the outcome record.
-/

namespace Krylov

/-- Vectors are lists of rationals (`numpy` 1-d arrays). -/
abbrev Vec := List ℚ

/-- Elementwise vector sum (`numpy` `+`). -/
def vadd (x y : Vec) : Vec := List.zipWith (· + ·) x y

/-- Elementwise vector difference (`numpy` `-`). -/
def vsub (x y : Vec) : Vec := List.zipWith (· - ·) x y

/-- Scalar times vector (`numpy` `c * v`). -/
def vscale (c : ℚ) (v : Vec) : Vec := v.map (c * ·)

/-- Vector divided by a scalar (`numpy` `v / c`). -/
def vdiv (v : Vec) (c : ℚ) : Vec := v.map (· / c)

/-- The all-zeros vector (`numpy.zeros_like`). -/
def zeroVec (n : Nat) : Vec := List.replicate n 0

/-- `sum(c * v for c, v in zip(cs, vs))`: linear combination; `zip`
truncates to the shorter list, exactly as Python's `zip` does. -/
def lincomb (n : Nat) (cs : List ℚ) (vs : List Vec) : Vec :=
  (cs.zip vs).foldl (fun acc p => vadd acc (vscale p.1 p.2)) (zeroVec n)

/-- The euclidean inner product `numpy.dot(x.conj().T, y)` on real data,
the default `inner` argument of `gmres`. -/
def dotQ (x y : Vec) : ℚ := (x.zip y).foldl (fun a p => a + p.1 * p.2) 0

/-- Largest `r` with `r ≤ k` and `r * r ≤ n` (fuel-based so that it
reduces inside the kernel). -/
def isqrtAux (n : Nat) : Nat → Nat
  | 0 => 0
  | k + 1 => if (k + 1) * (k + 1) ≤ n then k + 1 else isqrtAux n k

/-- Integer square root (floor), by descending search. -/
def isqrt (n : Nat) : Nat := isqrtAux n n

/-- Exact rational square root where one exists (used to instantiate the
`numpy.sqrt` parameter on concrete inputs whose intermediate values are
perfect squares). -/
def ratSqrt (q : ℚ) : ℚ :=
  let n := isqrt q.num.toNat
  let d := isqrt q.den
  if (n : ℤ) * n = q.num ∧ d * d = q.den then (n : ℚ) / (d : ℚ) else 0

/-- A linear operator with a declared shape: the `A` argument of `gmres`
(`A.shape == (rows, cols)`, `A @ v` is `apply v`). -/
structure LinOp where
  rows : Nat
  cols : Nat
  apply : Vec → Vec

/-- Dense-matrix operator given by its list of rows. -/
def matOp (rows : List (List ℚ)) : LinOp where
  rows := rows.length
  cols := (rows.headD []).length
  apply := fun v => rows.map (fun r => dotQ r v)

/-- Modelled from the spec: a preconditioner operator object
(`_helpers.py` is not in the source tree).  `Identity` is the
distinguished no-op variant; `op f` a general user-supplied operator. -/
inductive Op where
  | identity : Op
  | op : (Vec → Vec) → Op

/-- `P @ v` for a preconditioner object. -/
def Op.apply : Op → Vec → Vec
  | .identity, v => v
  | .op f, v => f v

/-- `v if P is None else P @ v` — the guard pattern used throughout
`gmres` for preconditioner application. -/
def precApply : Option Op → Vec → Vec
  | none, v => v
  | some p, v => p.apply v

/-- Modelled from the spec: one link of the `Product` operator chain
(`_helpers.py` is not in the source tree): identity operators (and absent
ones) are skipped, a general operator is applied. -/
def chainApply : Option Op → Vec → Vec
  | some (.op f), v => f v
  | _, v => v

/-- Number of operator applications performed by a direct `P @ v` call
(`1` whenever an object is present, `0` for `None`). -/
def someW : Option Op → Nat
  | none => 0
  | some _ => 1

/-- Number of operator applications performed by one `Product` chain link
(identity links are skipped by the chain). -/
def prodW : Option Op → Nat
  | some (.op _) => 1
  | _ => 0

/-- Ghost instrumentation: how many times each original operator has been
applied.  `mrProd` counts `Mr` applications made inside the composed
operator `Ml·A·Mr` during Arnoldi advances; `mrDirect` counts `Mr`
applications made during solution reconstruction (`_get_xk`). -/
structure Counts where
  a : Nat
  m : Nat
  ml : Nat
  mrProd : Nat
  mrDirect : Nat
deriving DecidableEq, Repr

/-- The zero count. -/
def czero : Counts := ⟨0, 0, 0, 0, 0⟩

instance : Add Counts :=
  ⟨fun x y => ⟨x.a + y.a, x.m + y.m, x.ml + y.ml,
    x.mrProd + y.mrProd, x.mrDirect + y.mrDirect⟩⟩

/-- A 2×2 rotation matrix (entries row-major). -/
structure Rot where
  r11 : ℚ
  r12 : ℚ
  r21 : ℚ
  r22 : ℚ
deriving DecidableEq, Repr

/-- Apply a 2×2 rotation to a pair. -/
def Rot.app (g : Rot) (x y : ℚ) : ℚ × ℚ :=
  (g.r11 * x + g.r12 * y, g.r21 * x + g.r22 * y)

/-- Modelled from the spec: the Givens rotation (`givens.py` is not in
the source tree) sending `[a, b]` to `[r, 0]`, real-scalar case, with the
degenerate `a = b = 0` input producing an identity-like rotation.  The
square root is the external library primitive. -/
def givens (sqrt : ℚ → ℚ) (a b : ℚ) : Rot :=
  let r := sqrt (a * a + b * b)
  if r = 0 then ⟨1, 0, 0, 1⟩ else ⟨a / r, b / r, -(b / r), a / r⟩

/-- `for i in range(k): R[i:i+2, k] = G[i] @ R[i:i+2, k]` — apply the
accumulated rotations to successive overlapping pairs of a new column. -/
def applyRots : List Rot → List ℚ → List ℚ
  | [], col => col
  | _ :: _, [] => []
  | _ :: _, [x] => [x]
  | g :: gs, x :: y :: rest =>
    let p := g.app x y
    p.1 :: applyRots gs (p.2 :: rest)

/-- Back-substitution worker: computes `x_i, …, x_{k-1}` given the already
computed tail `acc = [x_{i+1}, …, x_{k-1}]` (entries indexed by the
`entry i j` accessor of the triangular factor). -/
def solveUpperAux (entry : Nat → Nat → ℚ) (rhs : List ℚ) :
    Nat → List ℚ → List ℚ
  | 0, acc => acc
  | i + 1, acc =>
    let s := (List.range acc.length).foldl
      (fun t m => t + entry i (i + 1 + m) * acc.getD m 0) 0
    solveUpperAux entry rhs i (((rhs.getD i 0 - s) / entry i i) :: acc)

/-- Models `scipy.linalg.solve_triangular(R[:k, :k], rhs)` (an external
library primitive): solve the upper-triangular `k×k` system.  `R` is held
as the list of its columns. -/
def solveUpper (R : List (List ℚ)) (k : Nat) (rhs : List ℚ) : List ℚ :=
  solveUpperAux (fun i j => (R.getD j []).getD i 0) rhs k []

/-- The orthogonalization mode (`ortho` argument).  The Gram-Schmidt
variants used by the GMRES driver (`"mgs"` single pass, `"dmgs"` double
pass); modelled from the spec since `arnoldi.py` is not in the source
tree. -/
inductive Ortho where
  | mgs : Ortho
  | dmgs : Ortho
deriving DecidableEq, Repr

/-- Modelled from the spec: the state of the Arnoldi engine
(`arnoldi.py` is not in the source tree).  `V` is the Krylov basis, `P`
the auxiliary basis (equal to `V` when no left preconditioner `M` is
active), `H` the Hessenberg matrix held as a list of columns (column `k`
has the `k+2` entries `H[0..k+1, k]`). -/
structure ArnSt where
  V : List Vec
  P : List Vec
  H : List (List ℚ)
  iter : Nat
  invariant : Bool
deriving DecidableEq, Repr

/-- One (modified) Gram-Schmidt pass: orthogonalize the pair `(w, Mw)`
against the paired bases `(P_i, V_i)`, with coefficient
`c_i = inner(P_i, Mw)` subtracted as `c_i·V_i` from `Mw` and `c_i·P_i`
from `w`; returns the coefficients and the two orthogonalized vectors.
Without an active `M` both components coincide and this is plain modified
Gram-Schmidt. -/
def gsPass (inner : Vec → Vec → ℚ) :
    List (Vec × Vec) → Vec → Vec → List ℚ × Vec × Vec
  | [], w, mw => ([], w, mw)
  | (p, v) :: rest, w, mw =>
    let c := inner p mw
    let out := gsPass inner rest (vsub w (vscale c p)) (vsub mw (vscale c v))
    (c :: out.1, out.2)

/-- All the arguments of a `gmres` call (the unused `U` argument is
omitted; `sqrt` stands for the `numpy.sqrt` library primitive). -/
structure GmresArgs where
  A : LinOp
  b : Vec
  M : Option Op
  Ml : Option Op
  Mr : Option Op
  inner : Vec → Vec → ℚ
  sqrt : ℚ → ℚ
  exact_solution : Option Vec
  ortho : Ortho
  x0 : Option Vec
  tol : ℚ
  maxiter : Option Nat
  use_explicit_residual : Bool
  store_arnoldi : Bool

/-- Modelled from the spec: one `Arnoldi.advance` step.  Applies the
composed operator `Ml·A·Mr` (identity links skipped) to the newest basis
vector, applies `M` when active, orthogonalizes by the selected
Gram-Schmidt mode, and either appends the normalized vector or marks the
invariant-subspace flag when the new subdiagonal entry is zero.  The
iteration count is incremented either way. -/
def arnAdvance (g : GmresArgs) (st : ArnSt) : ArnSt :=
  let k := st.iter
  let vk := st.V.getD k []
  let w0 := chainApply g.Ml (g.A.apply (chainApply g.Mr vk))
  let mw0 := match g.M with
    | some m => m.apply w0
    | none => w0
  let pv := st.P.zip st.V
  let pass1 := gsPass g.inner pv w0 mw0
  let res := match g.ortho with
    | .mgs => pass1
    | .dmgs =>
      let pass2 := gsPass g.inner pv pass1.2.1 pass1.2.2
      (List.zipWith (· + ·) pass1.1 pass2.1, pass2.2)
  let h := g.sqrt (g.inner res.2.1 res.2.2)
  let col := res.1 ++ [h]
  { V := if h = 0 then st.V else st.V ++ [vdiv res.2.2 h]
    P := if h = 0 then st.P else st.P ++ [vdiv res.2.1 h]
    H := st.H ++ [col]
    iter := k + 1
    invariant := if h = 0 then true else st.invariant }

/-- Counter contribution of one `arnAdvance` (one application of the
composed `Ml·A·Mr` chain plus one `M` application when `M` is active). -/
def advCnt (g : GmresArgs) : Counts :=
  ⟨1, someW g.M, prodW g.Ml, prodW g.Mr, 0⟩

/-- The errors a `gmres` call can raise.  `shape` models the failed shape
assertions; `degenerateInput` the zero-norm start-vector failure of the
Arnoldi initialization (modelled from the spec, `arnoldi.py` /
`errors.py` not being in the source tree); `convergence` models
`ConvergenceError`, whose constructor per the spec may carry partial
solver state (`carried`) besides the message data (the iteration bound
and the last relative residual interpolated into the message string). -/
inductive GmresErr where
  | shape : GmresErr
  | degenerateInput : GmresErr
  | convergence : Nat → ℚ → Option (List ℚ × List Vec) → GmresErr
deriving DecidableEq, Repr

instance {e a : Type} [DecidableEq e] [DecidableEq a] :
    DecidableEq (Except e a) := fun x y =>
  match x, y with
  | .error u, .error v =>
    if h : u = v then isTrue (by rw [h]) else
      isFalse (fun hh => by cases hh; exact h rfl)
  | .ok u, .ok v =>
    if h : u = v then isTrue (by rw [h]) else
      isFalse (fun hh => by cases hh; exact h rfl)
  | .error _, .ok _ => isFalse (fun hh => by cases hh)
  | .ok _, .error _ => isFalse (fun hh => by cases hh)

/-- The two shape assertions of `gmres` (`A` square, matching `b`). -/
def shapeOk (g : GmresArgs) : Prop :=
  g.A.rows = g.A.cols ∧ g.A.cols = g.b.length

instance (g : GmresArgs) : Decidable (shapeOk g) :=
  inferInstanceAs (Decidable (g.A.rows = g.A.cols ∧ g.A.cols = g.b.length))

/-- Everything `gmres` computes before the iteration loop:
the sanitized `maxiter` and `x0` (reassigned to the zero vector on the
zero-right-hand-side branch), the initial residual data, the
preconditioned right-hand-side norm, the seeded residual history, the
initial `xk` cache and the counter state after the pre-loop operator
applications. -/
structure GmresCtx where
  g : GmresArgs
  maxiter : Nat
  x0 : Vec
  Mlr0 : Vec
  MMlr0 : Vec
  MMlr0norm : ℚ
  MMlbnorm : ℚ
  resnorms0 : List ℚ
  errnorms0 : List ℚ
  xk0 : Option Vec
  counts0 : Counts

/-- `get_residual(z) = (MMlr, Mlr)`: one application of `A` and of each
present left-side preconditioner. -/
def getResidualPair (g : GmresArgs) (z : Vec) : Vec × Vec :=
  let r := vsub g.b (g.A.apply z)
  let mlr := precApply g.Ml r
  (precApply g.M mlr, mlr)

/-- `get_residual_norm(z) = sqrt(inner(Mlr, MMlr))`. -/
def residNorm (g : GmresArgs) (z : Vec) : ℚ :=
  let p := getResidualPair g z
  g.sqrt (g.inner p.2 p.1)

/-- Counter contribution of one `get_residual` call. -/
def residCnt (g : GmresArgs) : Counts :=
  ⟨1, someW g.M, someW g.Ml, 0, 0⟩

/-- Lines 107–175 of `gmres.py`: argument sanitization, initial residual,
preconditioned right-hand-side norm, the exact-zero right-hand-side
branch, residual/error history seeding. -/
def mkCtx (g : GmresArgs) : GmresCtx :=
  let n := g.A.rows
  let maxiter := g.maxiter.getD n
  let x0a := g.x0.getD (zeroVec g.b.length)
  let rp := getResidualPair g x0a
  let mmlr0norm := g.sqrt (g.inner rp.2 rp.1)
  let mlb := precApply g.Ml g.b
  let mmlb := precApply g.M mlb
  let mmlbnorm := g.sqrt (g.inner mlb mmlb)
  let zero := mmlbnorm = 0
  let x0b := if zero then zeroVec g.b.length else x0a
  let counts0 := residCnt g + ⟨0, someW g.M, someW g.Ml, 0, 0⟩
  { g := g
    maxiter := maxiter
    x0 := x0b
    Mlr0 := rp.2
    MMlr0 := rp.1
    MMlr0norm := mmlr0norm
    MMlbnorm := mmlbnorm
    resnorms0 := if zero then [0] else [mmlr0norm / mmlbnorm]
    errnorms0 := match g.exact_solution with
      | some xs => [g.sqrt (g.inner (vsub xs x0b) (vsub xs x0b))]
      | none => []
    xk0 := if zero then some (zeroVec g.b.length) else none
    counts0 := counts0 }

/-- Modelled from the spec: the Arnoldi initialization with the
pre-transformed start vector and its norm supplied by the caller
(`Arnoldi(MlAMr, Mlr0, Mv=MMlr0, Mv_norm=MMlr0_norm, ...)`); fails with
the degenerate-input error on a zero-norm start vector, else stores the
normalized vector as `V[0]` (and its preimage as `P[0]`). -/
def arnInit (ctx : GmresCtx) : Except GmresErr ArnSt :=
  if ctx.MMlr0norm = 0 then .error .degenerateInput
  else .ok
    { V := [vdiv ctx.MMlr0 ctx.MMlr0norm]
      P := [vdiv ctx.Mlr0 ctx.MMlr0norm]
      H := []
      iter := 0
      invariant := false }

/-- The mutable state of the `gmres` iteration loop: the Arnoldi engine,
the accumulated Givens rotations `G`, the rotated columns `R`, the
rotated projected right-hand side `y`, the residual and error histories,
the per-iteration `xk` cache, the Python `iter` variable (set to the
pre-advance iteration index each pass) and the ghost counters. -/
structure LoopSt where
  arn : ArnSt
  G : List Rot
  R : List (List ℚ)
  y : List ℚ
  resnorms : List ℚ
  errnorms : List ℚ
  xk : Option Vec
  pyIter : Nat
  counts : Counts
deriving DecidableEq, Repr

/-- The loop state entering the first iteration. -/
def initSt (ctx : GmresCtx) (arn : ArnSt) : LoopSt where
  arn := arn
  G := []
  R := []
  y := ctx.MMlr0norm :: List.replicate ctx.maxiter 0
  resnorms := ctx.resnorms0
  errnorms := ctx.errnorms0
  xk := ctx.xk0
  pyIter := 0
  counts := ctx.counts0

/-- `_get_xk(y')` with `y'` of length `arn.iter`: solve the small
triangular system and form `x0 + Mr·(Σ c_i V_i)` (the `zip` with
`V[:-1]` truncates to the shorter list, as in Python). -/
def getXk (ctx : GmresCtx) (arn : ArnSt) (R : List (List ℚ))
    (yk : List ℚ) : Vec :=
  let k := arn.iter
  if k > 0 then
    let yy := solveUpper R k yk
    let s := lincomb ctx.g.b.length yy arn.V.dropLast
    vadd ctx.x0 (precApply ctx.g.Mr s)
  else ctx.x0

/-- Counter contribution of one `_get_xk` call (one `Mr` application
when the triangular-solve branch is taken and `Mr` is present). -/
def getXkCnt (g : GmresArgs) (k : Nat) : Counts :=
  if k > 0 then ⟨0, 0, 0, 0, someW g.Mr⟩ else czero

/-- One `arnoldi.advance()` call of the loop body (line 182). -/
def stepArn (ctx : GmresCtx) (st : LoopSt) : ArnSt :=
  arnAdvance ctx.g st.arn

/-- The new Hessenberg column with all previous Givens rotations applied
(lines 186–190). -/
def stepCol (ctx : GmresCtx) (st : LoopSt) : List ℚ :=
  applyRots st.G ((stepArn ctx st).H.getD st.arn.iter [])

/-- The new Givens rotation, computed from entries `k, k+1` of the
partially rotated column (line 193). -/
def stepRot (ctx : GmresCtx) (st : LoopSt) : Rot :=
  let k := st.arn.iter
  givens ctx.g.sqrt ((stepCol ctx st).getD k 0) ((stepCol ctx st).getD (k + 1) 0)

/-- The finished column of `R` after the new rotation is applied
(line 194). -/
def stepNewCol (ctx : GmresCtx) (st : LoopSt) : List ℚ :=
  let k := st.arn.iter
  let c := stepCol ctx st
  let p := (stepRot ctx st).app (c.getD k 0) (c.getD (k + 1) 0)
  c.take k ++ [p.1, p.2]

/-- `R` extended by the finished new column. -/
def stepR (ctx : GmresCtx) (st : LoopSt) : List (List ℚ) :=
  st.R ++ [stepNewCol ctx st]

/-- `y` after the new rotation hits entries `k, k+1` (line 195). -/
def stepY (ctx : GmresCtx) (st : LoopSt) : List ℚ :=
  let k := st.arn.iter
  let p := (stepRot ctx st).app (st.y.getD k 0) (st.y.getD (k + 1) 0)
  (st.y.set k p.1).set (k + 1) p.2

/-- `yk = y[:k+1]` (line 197). -/
def stepYk (ctx : GmresCtx) (st : LoopSt) : List ℚ :=
  (stepY ctx st).take (st.arn.iter + 1)

/-- The cheaply updated residual norm `abs(y[k+1])` (line 198). -/
def stepResnormUpd (ctx : GmresCtx) (st : LoopSt) : ℚ :=
  |(stepY ctx st).getD (st.arn.iter + 1) 0|

/-- The approximate solution `_get_xk(yk)` reconstructed inside the loop
body (after the advance, so the Arnoldi iteration count is `k+1`). -/
def stepXk (ctx : GmresCtx) (st : LoopSt) : Vec :=
  getXk ctx (stepArn ctx st) (stepR ctx st) (stepYk ctx st)

/-- One iteration of the `gmres` loop body (lines 181–247): advance
Arnoldi, fold the new column into the QR factorization, update `y`,
optionally track the error norm and the explicit residual, append the
relative residual, on convergence re-confirm with the explicit residual,
and on a failed final iteration raise the convergence error (which, as in
the source, carries no partial state — the locals assigned under
`store_arnoldi` just before the raise are discarded). -/
def gmresStep (ctx : GmresCtx) (st : LoopSt) : Except GmresErr LoopSt :=
  let k := st.arn.iter
  let base : LoopSt :=
    { arn := stepArn ctx st
      G := st.G ++ [stepRot ctx st]
      R := stepR ctx st
      y := stepY ctx st
      resnorms := st.resnorms
      errnorms := st.errnorms
      xk := none
      pyIter := k
      counts := st.counts + advCnt ctx.g }
  let st1 : LoopSt := match ctx.g.exact_solution with
    | some xs =>
      let xv := stepXk ctx st
      { base with
        xk := some xv
        errnorms := st.errnorms ++
          [ctx.g.sqrt (ctx.g.inner (vsub xs xv) (vsub xs xv))]
        counts := base.counts + getXkCnt ctx.g (k + 1) }
    | none => base
  let st2r : LoopSt × ℚ :=
    if ctx.g.use_explicit_residual then
      let xc : Vec × Counts := match st1.xk with
        | some xv => (xv, st1.counts)
        | none => (stepXk ctx st, st1.counts + getXkCnt ctx.g (k + 1))
      ({ st1 with xk := some xc.1, counts := xc.2 + residCnt ctx.g },
        residNorm ctx.g xc.1)
    else (st1, stepResnormUpd ctx st)
  let st3 : LoopSt :=
    { st2r.1 with resnorms := st.resnorms ++ [st2r.2 / ctx.MMlbnorm] }
  if st2r.2 / ctx.MMlbnorm ≤ ctx.g.tol then
    if ctx.g.use_explicit_residual then .ok st3
    else
      let xc : Vec × Counts := match st3.xk with
        | some xv => (xv, st3.counts)
        | none => (stepXk ctx st, st3.counts + getXkCnt ctx.g (k + 1))
      .ok { st3 with
        xk := some xc.1
        counts := xc.2 + residCnt ctx.g
        resnorms := st3.resnorms.dropLast ++
          [residNorm ctx.g xc.1 / ctx.MMlbnorm] }
  else if k + 1 = ctx.maxiter then
    .error (.convergence ctx.maxiter (st3.resnorms.getLastD 0) none)
  else .ok st3

/-- The `while` guard of the iteration loop (lines 178–180). -/
def loopGuard (ctx : GmresCtx) (st : LoopSt) : Prop :=
  st.resnorms.getLastD 0 > ctx.g.tol ∧ st.arn.iter < ctx.maxiter ∧
    st.arn.invariant = false

instance (ctx : GmresCtx) (st : LoopSt) : Decidable (loopGuard ctx st) :=
  inferInstanceAs (Decidable (st.resnorms.getLastD 0 > ctx.g.tol ∧
    st.arn.iter < ctx.maxiter ∧ st.arn.invariant = false))

/-- The iteration loop.  The fuel starts at `ctx.maxiter`; since every
iteration increments `arn.iter` and the guard requires
`arn.iter < maxiter`, the fuel never runs out before the guard fails. -/
def gmresLoop (ctx : GmresCtx) : Nat → LoopSt → Except GmresErr LoopSt
  | 0, st => .ok st
  | fuel + 1, st =>
    if loopGuard ctx st then
      match gmresStep ctx st with
      | .error e => .error e
      | .ok st' => gmresLoop ctx fuel st'
    else .ok st

/-- The result of a normally-returning `gmres` call.  `sol` and
`resnorms` with the operation-count summary (`ops*`) are the Python
return value `(xk or None, Info(resnorms, operations))`; the remaining
fields are ghost data exposing the final solver state and the
instrumented operator-application counters. -/
structure GmresOutcome where
  sol : Option Vec
  resnorms : List ℚ
  errnorms : List ℚ
  opsA : ℚ
  opsM : ℚ
  opsMl : ℚ
  opsMr : ℚ
  opsInner : ℚ
  opsAxpy : ℚ
  counts : Counts
  xkComputed : Vec
  x0Used : Vec
  arnV : List Vec
  arnIter : Nat
  arnInvariant : Bool
  Rcols : List (List ℚ)
  yFinal : List ℚ
  pyIter : Nat
deriving DecidableEq, Repr

/-- Lines 249–271 of `gmres.py`: compute the solution if not cached
(the basis/Hessenberg locals computed under `store_arnoldi` are assigned
and then discarded, hence do not appear), build the operation-count
summary from the Python `iter` variable, and return the solution only
when the final relative residual is strictly below the tolerance. -/
def gmresAssemble (ctx : GmresCtx) (st : LoopSt) : GmresOutcome :=
  let xkF := match st.xk with
    | some v => v
    | none => getXk ctx st.arn st.R (st.y.take st.arn.iter)
  let cF := match st.xk with
    | some _ => st.counts
    | none => st.counts + getXkCnt ctx.g st.arn.iter
  let it : ℚ := st.pyIter
  { sol := if st.resnorms.getLastD 0 < ctx.g.tol then some xkF else none
    resnorms := st.resnorms
    errnorms := st.errnorms
    opsA := 1 + it
    opsM := 2 + it
    opsMl := 2 + it
    opsMr := 1 + it
    opsInner := 2 + it + it * (it + 1) / 2
    opsAxpy := 4 + 2 * it + it * (it + 1) / 2
    counts := cF
    xkComputed := xkF
    x0Used := ctx.x0
    arnV := st.arn.V
    arnIter := st.arn.iter
    arnInvariant := st.arn.invariant
    Rcols := st.R
    yFinal := st.y
    pyIter := st.pyIter }

/-- The preconditioned GMRES driver `gmres` of `src/krylov/gmres.py`. -/
def gmres (g : GmresArgs) : Except GmresErr GmresOutcome :=
  if shapeOk g then
    let ctx := mkCtx g
    match arnInit ctx with
    | .error e => .error e
    | .ok arn0 =>
      match gmresLoop ctx ctx.maxiter (initSt ctx arn0) with
      | .error e => .error e
      | .ok st => .ok (gmresAssemble ctx st)
  else .error .shape

/-! ## The restarted-solver wrapper `_RestartedSolver` (lines 274–325)

The wrapper drives an abstract `Solver` (an external collaborator with
`xk`, `tol`, `resnorms`, `errnorms` attributes); it is modelled as a
function from the optional initial-guess override to one run's result. -/

/-- The result of one inner-solver run, as read off the solver object
(or off the `ConvergenceError.solver` payload when the run raised). -/
structure SolRun where
  xk : Vec
  tol : ℚ
  resnorms : List ℚ
  errnorms : List ℚ
deriving DecidableEq, Repr

/-- The accumulated state of `_RestartedSolver`: the latest approximate
solution, the concatenated histories, the tolerance copied from the last
run, and (ghost) the list of executed runs. -/
structure RestSt where
  xk : Option Vec
  resnorms : List ℚ
  errnorms : List ℚ
  tol : ℚ
  runs : List SolRun
deriving DecidableEq, Repr

/-- The `while restart == 0 or (resnorms[-1] > tol and restart <=
max_restarts)` loop: each pass feeds the previous solution as the next
initial guess, deletes the last accumulated entry (initially the `Inf`
sentinel) and appends the run's whole history. -/
def restartLoop (solver : Option Vec → SolRun) (trackErr : Bool)
    (maxRestarts : Nat) : Nat → Nat → RestSt → RestSt
  | 0, _, st => st
  | fuel + 1, restart, st =>
    if restart = 0 ∨ (st.resnorms.getLastD 0 > st.tol ∧ restart ≤ maxRestarts)
    then
      let sol := solver st.xk
      restartLoop solver trackErr maxRestarts fuel (restart + 1)
        { xk := some sol.xk
          tol := sol.tol
          resnorms := st.resnorms.dropLast ++ sol.resnorms
          errnorms := if trackErr then st.errnorms.dropLast ++ sol.errnorms
            else st.errnorms
          runs := st.runs ++ [sol] }
    else st

/-- `_RestartedSolver.__init__`: seed the histories with the sentinel
(`numpy.Inf`, modelled as an arbitrary rational since it is deleted
before it is ever read), run the loop, and report convergence of the last
entry; on failure the raised `ConvergenceError` carries the accumulated
state (the returned pair stands for (state, converged-normally)). -/
def restartedSolver (solver : Option Vec → SolRun) (trackErr : Bool)
    (maxRestarts : Nat) (sentinel : ℚ) : RestSt × Bool :=
  let st0 : RestSt :=
    { xk := none
      resnorms := [sentinel]
      errnorms := if trackErr then [sentinel] else []
      tol := 0
      runs := [] }
  let stF := restartLoop solver trackErr maxRestarts (maxRestarts + 2) 0 st0
  (stF, !(stF.resnorms.getLastD 0 > stF.tol))

/-! ## Basic bookkeeping lemmas -/

lemma counts_add_a (x y : Counts) : (x + y).a = x.a + y.a := rfl

lemma counts_add_m (x y : Counts) : (x + y).m = x.m + y.m := rfl

lemma counts_add_ml (x y : Counts) : (x + y).ml = x.ml + y.ml := rfl

lemma counts_add_mrProd (x y : Counts) : (x + y).mrProd = x.mrProd + y.mrProd :=
  rfl

lemma counts_add_mrDirect (x y : Counts) :
    (x + y).mrDirect = x.mrDirect + y.mrDirect := rfl

lemma advCnt_a (g : GmresArgs) : (advCnt g).a = 1 := rfl

lemma advCnt_mrProd (g : GmresArgs) : (advCnt g).mrProd = prodW g.Mr := rfl

lemma residCnt_a (g : GmresArgs) : (residCnt g).a = 1 := rfl

lemma residCnt_mrProd (g : GmresArgs) : (residCnt g).mrProd = 0 := rfl

lemma getXkCnt_a (g : GmresArgs) (k : Nat) : (getXkCnt g k).a = 0 := by
  unfold getXkCnt czero; split <;> rfl

lemma getXkCnt_mrProd (g : GmresArgs) (k : Nat) : (getXkCnt g k).mrProd = 0 := by
  unfold getXkCnt czero; split <;> rfl

lemma arnAdvance_iter (g : GmresArgs) (st : ArnSt) :
    (arnAdvance g st).iter = st.iter + 1 := rfl

lemma arnAdvance_length (g : GmresArgs) (st : ArnSt)
    (h : (arnAdvance g st).invariant = false) :
    (arnAdvance g st).V.length = st.V.length + 1 := by
  unfold arnAdvance at h ⊢
  dsimp only at h ⊢
  split at h
  · simp at h
  · rename_i hc
    rw [if_neg hc]
    simp

lemma mkCtx_g (g : GmresArgs) : (mkCtx g).g = g := rfl

/-- What every normally-returning loop iteration guarantees: the new
Arnoldi/QR/`y` state comes from the step primitives, the composed
operator was applied exactly once (hence `Mr` exactly `prodW` times
inside the recurrence), the `xk` cache is either empty or holds the
reconstructed iterate, and the Python `iter` variable was set to the
pre-advance index. -/
lemma gmresStep_ok_spec (ctx : GmresCtx) (st st' : LoopSt)
    (h : gmresStep ctx st = .ok st') :
    st'.arn = stepArn ctx st ∧
    st'.R = stepR ctx st ∧
    st'.y = stepY ctx st ∧
    st'.counts.mrProd = st.counts.mrProd + prodW ctx.g.Mr ∧
    (st'.xk = none ∨ st'.xk = some (stepXk ctx st)) ∧
    st'.pyIter = st.arn.iter := by
  rcases hex : ctx.g.exact_solution with _ | xs <;>
    rcases huse : ctx.g.use_explicit_residual with _ | _ <;>
      simp only [gmresStep, hex, huse, Bool.false_eq_true, if_false, if_true,
        reduceIte] at h
  all_goals repeat' split at h
  all_goals try (simp only [Except.ok.injEq] at h; subst h)
  all_goals
    first
      | cases h
      | (refine ⟨rfl, rfl, rfl, ?_, ?_, rfl⟩ <;>
           simp [counts_add_mrProd, advCnt_mrProd, getXkCnt_mrProd,
             residCnt_mrProd])

/-- The only error a loop iteration can raise is the convergence error,
and it never carries partial state. -/
lemma gmresStep_error_spec (ctx : GmresCtx) (st : LoopSt) (e : GmresErr)
    (h : gmresStep ctx st = .error e) :
    ∃ q, e = .convergence ctx.maxiter q none := by
  rcases hex : ctx.g.exact_solution with _ | xs <;>
    rcases huse : ctx.g.use_explicit_residual with _ | _ <;>
      simp only [gmresStep, hex, huse, Bool.false_eq_true, if_false, if_true,
        reduceIte] at h
  all_goals repeat' split at h
  all_goals try cases h
  all_goals (apply Exists.intro; rfl)

/-- If the loop guard is false the loop returns its state unchanged,
whatever fuel is left. -/
lemma gmresLoop_not_guard (ctx : GmresCtx) (st : LoopSt) (fuel : Nat)
    (h : ¬ loopGuard ctx st) : gmresLoop ctx fuel st = .ok st := by
  cases fuel <;> simp [gmresLoop, h]

/-- Invariance principle for the iteration loop. -/
lemma gmresLoop_ok_ind (ctx : GmresCtx) (P : LoopSt → Prop)
    (hstep : ∀ s s', P s → loopGuard ctx s → gmresStep ctx s = .ok s' → P s') :
    ∀ fuel s sF, P s → gmresLoop ctx fuel s = .ok sF → P sF := by
  intro fuel
  induction fuel with
  | zero =>
    intro s sF hP h
    simp only [gmresLoop, Except.ok.injEq] at h
    exact h ▸ hP
  | succ n ih =>
    intro s sF hP h
    by_cases hg : loopGuard ctx s
    · simp only [gmresLoop, if_pos hg] at h
      cases hs : gmresStep ctx s with
      | error e => rw [hs] at h; cases h
      | ok s' => rw [hs] at h; exact ih s' sF (hstep s s' hP hg hs) h
    · simp only [gmresLoop, if_neg hg, Except.ok.injEq] at h
      exact h ▸ hP

/-- The only error the loop can raise is the (state-free) convergence
error. -/
lemma gmresLoop_error_spec (ctx : GmresCtx) :
    ∀ fuel st e, gmresLoop ctx fuel st = .error e →
      ∃ q, e = .convergence ctx.maxiter q none := by
  intro fuel
  induction fuel with
  | zero => intro st e h; cases h
  | succ n ih =>
    intro st e h
    by_cases hg : loopGuard ctx st
    · simp only [gmresLoop, if_pos hg] at h
      cases hs : gmresStep ctx st with
      | error e' =>
        rw [hs] at h
        simp only [Except.error.injEq] at h
        exact h ▸ gmresStep_error_spec ctx st e' hs
      | ok st' => rw [hs] at h; exact ih st' e h
    · simp only [gmresLoop, if_neg hg] at h; cases h

/-- The Arnoldi initialization fails only with the degenerate-input
error. -/
lemma arnInit_error_spec (ctx : GmresCtx) (e : GmresErr)
    (h : arnInit ctx = .error e) : e = .degenerateInput := by
  unfold arnInit at h
  split at h
  · simp only [Except.error.injEq] at h; exact h.symm
  · cases h

/-- The Arnoldi initialization succeeds on a nonzero-norm start vector
and stores the two normalized vectors. -/
lemma arnInit_ok (ctx : GmresCtx) (h : ctx.MMlr0norm ≠ 0) :
    arnInit ctx = .ok
      ⟨[vdiv ctx.MMlr0 ctx.MMlr0norm], [vdiv ctx.Mlr0 ctx.MMlr0norm],
        [], 0, false⟩ := by
  unfold arnInit
  rw [if_neg h]

/-- Destructor for a normally-returning `gmres` call: the outcome is the
assembly of some final loop state reached from the initial state. -/
lemma gmres_ok_dest (g : GmresArgs) (out : GmresOutcome)
    (h : gmres g = .ok out) :
    shapeOk g ∧ ∃ arn0 st, arnInit (mkCtx g) = .ok arn0 ∧
      gmresLoop (mkCtx g) (mkCtx g).maxiter (initSt (mkCtx g) arn0) = .ok st ∧
      out = gmresAssemble (mkCtx g) st := by
  simp only [gmres] at h
  split at h
  · rename_i hok
    refine ⟨hok, ?_⟩
    split at h
    · cases h
    · rename_i arn0 hinit
      split at h
      · cases h
      · rename_i st hloop
        simp only [Except.ok.injEq] at h
        exact ⟨arn0, st, hinit, hloop, h.symm⟩
  · cases h

lemma gmresAssemble_resnorms (ctx : GmresCtx) (st : LoopSt) :
    (gmresAssemble ctx st).resnorms = st.resnorms := rfl

lemma gmresAssemble_sol_isSome (ctx : GmresCtx) (st : LoopSt) :
    (gmresAssemble ctx st).sol.isSome ↔
      st.resnorms.getLastD 0 < ctx.g.tol := by
  unfold gmresAssemble
  dsimp only
  split <;> simp_all [List.getLastD_eq_getLast?]

/-! ## Concrete instances used by witnesses and counterexamples -/

/-- A well-behaved base call: `A = [[12,0],[5,1]]`, `b = [1,0]`, the
default `Identity()` preconditioners, euclidean inner product, exact
square roots, tolerance `1/2`.  GMRES converges after one iteration with
relative residual `5/13`, and every intermediate quantity is an exact
rational (all square roots hit perfect squares). -/
def argsBase : GmresArgs :=
  { A := matOp [[12, 0], [5, 1]]
    b := [1, 0]
    M := some .identity
    Ml := some .identity
    Mr := some .identity
    inner := dotQ
    sqrt := ratSqrt
    exact_solution := none
    ortho := .mgs
    x0 := none
    tol := 1/2
    maxiter := none
    use_explicit_residual := false
    store_arnoldi := false }

/-- Zero right-hand side with a nonzero initial guess. -/
def zeroRhsArgs : GmresArgs :=
  { argsBase with A := matOp [[1]], b := [0], x0 := some [1] }

/-- The base call with a tight tolerance and `maxiter = 1`, asking for
the Arnoldi basis to be retained: the single permitted iteration leaves
relative residual `5/13 > 1/100`. -/
def lastIterArgs : GmresArgs :=
  { argsBase with tol := 1/100, maxiter := some 1, store_arnoldi := true }

/-- The base call with a genuine (non-identity) right preconditioner
`Mr = (1/2)·I`. -/
def mrArgs : GmresArgs :=
  { argsBase with Mr := some (.op (fun v => vscale (1/2) v)) }

/-- The base call with `maxiter = 0`. -/
def maxiterZeroArgs : GmresArgs :=
  { argsBase with maxiter := some 0 }

/-- Placeholder outcome for the extraction helper. -/
def outDefault : GmresOutcome :=
  ⟨none, [], [], 0, 0, 0, 0, 0, 0, czero, [], [], [], 0, false, [], [], 0⟩

/-- The outcome of a normally-returning concrete call. -/
def runOut (g : GmresArgs) : GmresOutcome :=
  (gmres g).toOption.getD outDefault

/-! ## Claim theorems -/

/-- C2: for every normally-returning `gmres` call, a (non-`None`)
solution is returned if and only if the last entry of the returned
relative-residual history is strictly below the tolerance — even when an
approximate solution was computed internally, it is withheld
otherwise. -/
theorem sol_returned_iff_last_resnorm_below_tol (g : GmresArgs)
    (out : GmresOutcome) (h : gmres g = .ok out) :
    out.sol.isSome ↔ out.resnorms.getLastD 0 < g.tol := by
  obtain ⟨-, arn0, st, -, hloop, hout⟩ := gmres_ok_dest g out h
  subst hout
  exact gmresAssemble_sol_isSome (mkCtx g) st

/-- Witness for C2 on the concrete base call (which converges with
final relative residual `5/13 < 1/2` and returns a solution). -/
theorem sol_returned_iff_witness :
    gmres argsBase = .ok (runOut argsBase) ∧
      ((runOut argsBase).sol.isSome ↔
        (runOut argsBase).resnorms.getLastD 0 < argsBase.tol) :=
  ⟨by with_unfolding_all decide,
    sol_returned_iff_last_resnorm_below_tol argsBase (runOut argsBase)
      (by with_unfolding_all decide)⟩

/-- C4: `gmres` fails with the shape error exactly when the operator is
not square or does not match the right-hand side; the failure happens
before anything else (the result is the bare shape error), and on
matching dimensions no shape error can be produced. -/
theorem shape_error_iff_shape_mismatch (g : GmresArgs) :
    gmres g = .error .shape ↔ ¬ shapeOk g := by
  constructor
  · intro h hok
    simp only [gmres, if_pos hok] at h
    split at h
    · rename_i e hinit
      simp only [Except.error.injEq] at h
      have h2 := arnInit_error_spec (mkCtx g) e hinit
      rw [h] at h2
      cases h2
    · rename_i arn0 hinit
      split at h
      · rename_i e hloop
        simp only [Except.error.injEq] at h
        obtain ⟨q, hq⟩ := gmresLoop_error_spec (mkCtx g) _ _ e hloop
        rw [h] at hq
        cases hq
      · cases h
  · intro h
    simp only [gmres, if_neg h]

/-- C7 (amended): the operation-count summary always reports the fixed
formulas `A: 1+iter`, `M: 2+iter`, `Ml: 2+iter`, `Mr: 1+iter` in terms of
the Python `iter` variable, irrespective of whether any preconditioner is
the identity no-op variant — identity preconditioners are counted like
any other. -/
theorem operation_counts_formulas (g : GmresArgs) (out : GmresOutcome)
    (h : gmres g = .ok out) :
    out.opsA = 1 + (out.pyIter : ℚ) ∧ out.opsM = 2 + (out.pyIter : ℚ) ∧
      out.opsMl = 2 + (out.pyIter : ℚ) ∧
      out.opsMr = 1 + (out.pyIter : ℚ) := by
  obtain ⟨-, arn0, st, -, -, hout⟩ := gmres_ok_dest g out h
  subst hout
  exact ⟨rfl, rfl, rfl, rfl⟩

/-- Witness for the amended C7 on the base call. -/
theorem operation_counts_witness :
    gmres argsBase = .ok (runOut argsBase) ∧
      (runOut argsBase).opsM = 2 + ((runOut argsBase).pyIter : ℚ) :=
  ⟨by with_unfolding_all decide,
    (operation_counts_formulas argsBase (runOut argsBase)
      (by with_unfolding_all decide)).2.1⟩

/-- Counterexample for C7 as stated: in the base call all three
preconditioners are the distinguished identity no-op variant, one
iteration runs, and yet the operation-count summary reports `M: 2`,
`Ml: 2`, `Mr: 1` — the identity preconditioners contribute nonzero
counted applications. -/
theorem identity_preconditioner_counted_cex :
    argsBase.M = some Op.identity ∧ argsBase.Ml = some Op.identity ∧
      argsBase.Mr = some Op.identity ∧
      (gmres argsBase).toOption.map
          (fun o => (o.opsM, o.opsMl, o.opsMr, o.resnorms.length)) =
        some (2, 2, 1, 2) ∧
      ¬((2 : ℚ) = 0 ∧ (1 : ℚ) = 0) :=
  ⟨rfl, rfl, rfl, by with_unfolding_all decide, by with_unfolding_all decide⟩

/-! ## Pre-loop state lemmas -/

lemma mkCtx_maxiter (g : GmresArgs) :
    (mkCtx g).maxiter = g.maxiter.getD g.A.rows := rfl

lemma mkCtx_counts0_a (g : GmresArgs) : (mkCtx g).counts0.a = 1 := rfl

lemma mkCtx_resnorms0_of_ne (g : GmresArgs) (h : (mkCtx g).MMlbnorm ≠ 0) :
    (mkCtx g).resnorms0 =
      [(mkCtx g).MMlr0norm / (mkCtx g).MMlbnorm] := by
  simp only [mkCtx] at h ⊢
  rw [if_neg h]

lemma mkCtx_xk0_of_ne (g : GmresArgs) (h : (mkCtx g).MMlbnorm ≠ 0) :
    (mkCtx g).xk0 = none := by
  simp only [mkCtx] at h ⊢
  rw [if_neg h]

lemma mkCtx_resnorms0_of_eq (g : GmresArgs) (h : (mkCtx g).MMlbnorm = 0) :
    (mkCtx g).resnorms0 = [0] := by
  simp only [mkCtx] at h ⊢
  rw [if_pos h]

lemma mkCtx_xk0_of_eq (g : GmresArgs) (h : (mkCtx g).MMlbnorm = 0) :
    (mkCtx g).xk0 = some (zeroVec g.b.length) := by
  simp only [mkCtx] at h ⊢
  rw [if_pos h]

lemma mkCtx_x0_of_eq (g : GmresArgs) (h : (mkCtx g).MMlbnorm = 0) :
    (mkCtx g).x0 = zeroVec g.b.length := by
  simp only [mkCtx] at h ⊢
  rw [if_pos h]

/-! ## Assembly lemmas -/

lemma gmresAssemble_sol_none (ctx : GmresCtx) (st : LoopSt)
    (h : ¬ st.resnorms.getLastD 0 < ctx.g.tol) :
    (gmresAssemble ctx st).sol = none := by
  unfold gmresAssemble
  dsimp only
  rw [if_neg h]

lemma gmresAssemble_sol_some (ctx : GmresCtx) (st : LoopSt)
    (h : st.resnorms.getLastD 0 < ctx.g.tol) :
    (gmresAssemble ctx st).sol = some (gmresAssemble ctx st).xkComputed := by
  unfold gmresAssemble
  dsimp only
  rw [if_pos h]

lemma gmresAssemble_xk_cached (ctx : GmresCtx) (st : LoopSt) (v : Vec)
    (h : st.xk = some v) : (gmresAssemble ctx st).xkComputed = v := by
  unfold gmresAssemble
  dsimp only
  rw [h]

lemma gmresAssemble_counts_cached (ctx : GmresCtx) (st : LoopSt) (v : Vec)
    (h : st.xk = some v) : (gmresAssemble ctx st).counts = st.counts := by
  unfold gmresAssemble
  dsimp only
  rw [h]

/-- C10: with `maxiter = 0` and a nonzero preconditioned right-hand side
whose initial relative residual exceeds the tolerance, the iteration loop
never runs and `gmres` returns normally with no solution and a
single-entry residual history — no convergence error is raised even
though the tolerance is unmet. -/
theorem maxiter_zero_returns_without_error (g : GmresArgs)
    (hshape : shapeOk g) (hmax : g.maxiter = some 0) (htol : 0 ≤ g.tol)
    (hnz : (mkCtx g).MMlbnorm ≠ 0)
    (hgt : g.tol < (mkCtx g).MMlr0norm / (mkCtx g).MMlbnorm) :
    ∃ out, gmres g = .ok out ∧ out.sol = none ∧
      out.resnorms = [(mkCtx g).MMlr0norm / (mkCtx g).MMlbnorm] := by
  have hr0 : (mkCtx g).MMlr0norm ≠ 0 := by
    intro h0
    rw [h0, zero_div] at hgt
    exact absurd hgt (not_lt.mpr htol)
  have hinit := arnInit_ok (mkCtx g) hr0
  have hmax0 : (mkCtx g).maxiter = 0 := by
    rw [mkCtx_maxiter, hmax]
    rfl
  have hres : (initSt (mkCtx g)
      ⟨[vdiv (mkCtx g).MMlr0 (mkCtx g).MMlr0norm],
        [vdiv (mkCtx g).Mlr0 (mkCtx g).MMlr0norm], [], 0, false⟩).resnorms =
      [(mkCtx g).MMlr0norm / (mkCtx g).MMlbnorm] :=
    mkCtx_resnorms0_of_ne g hnz
  refine ⟨gmresAssemble (mkCtx g) (initSt (mkCtx g)
      ⟨[vdiv (mkCtx g).MMlr0 (mkCtx g).MMlr0norm],
        [vdiv (mkCtx g).Mlr0 (mkCtx g).MMlr0norm], [], 0, false⟩),
      ?_, ?_, ?_⟩
  · simp only [gmres, if_pos hshape, hinit, hmax0, gmresLoop]
  · apply gmresAssemble_sol_none
    rw [hres]
    simpa using lt_asymm hgt
  · rw [gmresAssemble_resnorms]
    exact hres

/-- Witness for C10 on the base call with `maxiter = 0` (initial relative
residual `1 > 1/2`). -/
theorem maxiter_zero_witness :
    maxiterZeroArgs.maxiter = some 0 ∧
      ∃ out, gmres maxiterZeroArgs = .ok out ∧ out.sol = none ∧
        out.resnorms = [(mkCtx maxiterZeroArgs).MMlr0norm /
          (mkCtx maxiterZeroArgs).MMlbnorm] :=
  ⟨rfl, maxiter_zero_returns_without_error maxiterZeroArgs
    (by with_unfolding_all decide) rfl (by with_unfolding_all decide)
    (by with_unfolding_all decide) (by with_unfolding_all decide)⟩

/-- C1 (amended): when the preconditioned right-hand-side norm is exactly
zero (and the preconditioned initial residual has nonzero norm, so the
Arnoldi initialization does not reject its start vector), `gmres` returns
the zero vector with residual history `[0]` — but the operator `A` has
been applied exactly once (for the initial residual computed before the
zero test), not zero times. -/
theorem zero_rhs_returns_zero_with_one_A_application (g : GmresArgs)
    (hshape : shapeOk g) (hz : (mkCtx g).MMlbnorm = 0)
    (hr : (mkCtx g).MMlr0norm ≠ 0) (htol : 0 < g.tol) :
    ∃ out, gmres g = .ok out ∧ out.sol = some (zeroVec g.b.length) ∧
      out.resnorms = [0] ∧ out.counts.a = 1 := by
  have hinit := arnInit_ok (mkCtx g) hr
  have hres : (initSt (mkCtx g)
      ⟨[vdiv (mkCtx g).MMlr0 (mkCtx g).MMlr0norm],
        [vdiv (mkCtx g).Mlr0 (mkCtx g).MMlr0norm], [], 0, false⟩).resnorms =
      [0] := mkCtx_resnorms0_of_eq g hz
  have hxk : (initSt (mkCtx g)
      ⟨[vdiv (mkCtx g).MMlr0 (mkCtx g).MMlr0norm],
        [vdiv (mkCtx g).Mlr0 (mkCtx g).MMlr0norm], [], 0, false⟩).xk =
      some (zeroVec g.b.length) := mkCtx_xk0_of_eq g hz
  have hguard : ¬ loopGuard (mkCtx g) (initSt (mkCtx g)
      ⟨[vdiv (mkCtx g).MMlr0 (mkCtx g).MMlr0norm],
        [vdiv (mkCtx g).Mlr0 (mkCtx g).MMlr0norm], [], 0, false⟩) := by
    intro hgd
    have h1 := hgd.1
    rw [hres] at h1
    simp only [List.getLastD] at h1
    exact absurd h1 (lt_asymm htol)
  have hloop := gmresLoop_not_guard (mkCtx g) _ (mkCtx g).maxiter hguard
  have hlt : (initSt (mkCtx g)
      ⟨[vdiv (mkCtx g).MMlr0 (mkCtx g).MMlr0norm],
        [vdiv (mkCtx g).Mlr0 (mkCtx g).MMlr0norm], [], 0,
        false⟩).resnorms.getLastD 0 < (mkCtx g).g.tol := by
    rw [hres]
    simpa using htol
  refine ⟨gmresAssemble (mkCtx g) (initSt (mkCtx g)
      ⟨[vdiv (mkCtx g).MMlr0 (mkCtx g).MMlr0norm],
        [vdiv (mkCtx g).Mlr0 (mkCtx g).MMlr0norm], [], 0, false⟩),
      ?_, ?_, ?_, ?_⟩
  · simp only [gmres, if_pos hshape, hinit, hloop]
  · rw [gmresAssemble_sol_some _ _ hlt, gmresAssemble_xk_cached _ _ _ hxk]
  · rw [gmresAssemble_resnorms]
    exact hres
  · rw [gmresAssemble_counts_cached _ _ _ hxk]
    exact mkCtx_counts0_a g

/-- Witness for the amended C1: `A = [[1]]`, `b = [0]`, `x0 = [1]`. -/
theorem zero_rhs_returns_zero_witness :
    ∃ out, gmres zeroRhsArgs = .ok out ∧
      out.sol = some (zeroVec zeroRhsArgs.b.length) ∧
      out.resnorms = [0] ∧ out.counts.a = 1 :=
  zero_rhs_returns_zero_with_one_A_application zeroRhsArgs
    (by with_unfolding_all decide) (by with_unfolding_all decide)
    (by with_unfolding_all decide) (by with_unfolding_all decide)

/-- Counterexample for C1 as stated: on a call with exactly-zero
preconditioned right-hand side the solver does return the zero vector
with history `[0.0]`, but the instrumented count of `A` applications is
`1` (the initial-residual computation), not `0`. -/
theorem zero_rhs_operator_application_cex :
    (gmres zeroRhsArgs).toOption.map
        (fun o => (o.sol, o.resnorms, o.counts.a)) =
      some (some [0], [0], 1) ∧ (1 : Nat) ≠ 0 :=
  ⟨by with_unfolding_all decide, by decide⟩

/-- C3: on the concrete call `A = [[12,0],[5,1]]`, `b = [1,0]`,
`tol = 1/100`, `maxiter = 1`, `store_arnoldi = True`, the last permitted
iteration ends with relative residual `5/13 > 1/100` and `gmres` raises
the convergence error carrying only the message data (the iteration bound
and the final relative residual): no residual history and no retained
Arnoldi basis are attached (`carried = none`), although the retain-basis
flag was set. -/
theorem last_iteration_convergence_error_carries_no_state :
    lastIterArgs.store_arnoldi = true ∧
      gmres lastIterArgs = .error (.convergence 1 (5/13) none) :=
  ⟨rfl, by with_unfolding_all decide⟩

/-- Extensionality for operators with equal shapes and pointwise-equal
application. -/
lemma linOp_ext (a b : LinOp) (h1 : a.rows = b.rows) (h2 : a.cols = b.cols)
    (h3 : ∀ v, a.apply v = b.apply v) : a = b := by
  cases a
  cases b
  simp only [LinOp.mk.injEq]
  exact ⟨h1, h2, funext h3⟩

/-- C9: `gmres` is deterministic — two calls whose arguments agree (the
operator, inner product and square-root primitive as deterministic
functions, pointwise; everything else as values) produce identical
results, residual histories included.  There is no hidden randomness. -/
theorem gmres_deterministic (g₁ g₂ : GmresArgs)
    (hrows : g₁.A.rows = g₂.A.rows) (hcols : g₁.A.cols = g₂.A.cols)
    (happ : ∀ v, g₁.A.apply v = g₂.A.apply v)
    (hb : g₁.b = g₂.b) (hM : g₁.M = g₂.M) (hMl : g₁.Ml = g₂.Ml)
    (hMr : g₁.Mr = g₂.Mr)
    (hinner : ∀ x y, g₁.inner x y = g₂.inner x y)
    (hsqrt : ∀ q, g₁.sqrt q = g₂.sqrt q)
    (hex : g₁.exact_solution = g₂.exact_solution) (ho : g₁.ortho = g₂.ortho)
    (hx0 : g₁.x0 = g₂.x0) (htol : g₁.tol = g₂.tol)
    (hmax : g₁.maxiter = g₂.maxiter)
    (hu : g₁.use_explicit_residual = g₂.use_explicit_residual)
    (hs : g₁.store_arnoldi = g₂.store_arnoldi) :
    gmres g₁ = gmres g₂ := by
  have hA : g₁.A = g₂.A := linOp_ext _ _ hrows hcols happ
  have hi : g₁.inner = g₂.inner := funext fun x => funext fun y => hinner x y
  have hq : g₁.sqrt = g₂.sqrt := funext hsqrt
  have hg : g₁ = g₂ := by
    cases g₁
    cases g₂
    simp only [GmresArgs.mk.injEq]
    exact ⟨hA, hb, hM, hMl, hMr, hi, hq, hex, ho, hx0, htol, hmax, hu, hs⟩
  rw [hg]

/-- The base call with syntactically different but pointwise-equal
function arguments. -/
def argsBaseEta : GmresArgs :=
  { argsBase with
    A := ⟨2, 2, fun v => (matOp [[12, 0], [5, 1]]).apply v⟩
    inner := fun x y => dotQ x y
    sqrt := fun q => ratSqrt q }

/-- Witness for C9: the base call and its eta-expanded variant produce
identical results. -/
theorem gmres_deterministic_witness :
    gmres argsBase = gmres argsBaseEta :=
  gmres_deterministic argsBase argsBaseEta rfl rfl (fun _ => rfl) rfl rfl rfl
    rfl (fun _ _ => rfl) (fun _ => rfl) rfl rfl rfl rfl rfl rfl rfl

/-- C5: in any loop iteration with explicit-residual mode off in which
the cheaply updated relative residual `|y[k+1]| / ‖M·Ml·b‖` is at or
below the tolerance, the step reconstructs the approximate solution,
recomputes the true residual norm explicitly (costing exactly one more
application of `A` beyond the advance, hence `counts.a + 2` in total) and
records that explicit value — not the cheap update — as the iteration's
entry of the residual history, before the loop test sees it. -/
theorem cheap_convergence_triggers_explicit_residual (ctx : GmresCtx)
    (st : LoopSt) (huse : ctx.g.use_explicit_residual = false)
    (hle : stepResnormUpd ctx st / ctx.MMlbnorm ≤ ctx.g.tol) :
    ∃ st2, gmresStep ctx st = .ok st2 ∧
      st2.resnorms = st.resnorms ++
        [residNorm ctx.g (stepXk ctx st) / ctx.MMlbnorm] ∧
      st2.xk = some (stepXk ctx st) ∧
      st2.counts.a = st.counts.a + 2 := by
  rcases hex : ctx.g.exact_solution with _ | xs <;>
    simp only [gmresStep, hex, huse, Bool.false_eq_true, if_false,
      reduceIte, if_pos hle] <;>
    refine ⟨_, rfl, ?_, rfl, ?_⟩ <;>
    simp [counts_add_a, advCnt_a, getXkCnt_a, residCnt_a,
      List.dropLast_concat]

/-- Fallback Arnoldi state for extraction. -/
def arnDefault : ArnSt := ⟨[], [], [], 0, false⟩

/-- Context of the base call. -/
def stepCtx : GmresCtx := mkCtx argsBase

/-- The loop state entering the base call's first iteration. -/
def stepSt : LoopSt := initSt stepCtx ((arnInit stepCtx).toOption.getD arnDefault)

/-- Witness for C5 on the base call's first iteration: the cheaply
updated relative residual is `5/13 ≤ 1/2`, and the step records the
explicitly recomputed residual. -/
theorem cheap_convergence_explicit_witness :
    stepCtx.g.use_explicit_residual = false ∧
      stepResnormUpd stepCtx stepSt / stepCtx.MMlbnorm ≤ stepCtx.g.tol ∧
      ∃ st2, gmresStep stepCtx stepSt = .ok st2 ∧
        st2.resnorms = stepSt.resnorms ++
          [residNorm stepCtx.g (stepXk stepCtx stepSt) / stepCtx.MMlbnorm] ∧
        st2.xk = some (stepXk stepCtx stepSt) ∧
        st2.counts.a = stepSt.counts.a + 2 :=
  ⟨rfl, by with_unfolding_all decide,
    cheap_convergence_triggers_explicit_residual stepCtx stepSt rfl
      (by with_unfolding_all decide)⟩

/-! ## The reconstruction invariant (for C6) -/

/-- Loop invariant: the `xk` cache, when set, holds the reconstruction
`_get_xk(y[:iter])` of the current state; `Mr` has been applied inside
the composed operator exactly once per completed advance; and without
invariant-subspace detection the basis holds `iter + 1` vectors. -/
def LoopInv (ctx : GmresCtx) (st : LoopSt) : Prop :=
  (∀ v, st.xk = some v →
    v = getXk ctx st.arn st.R (st.y.take st.arn.iter)) ∧
  st.counts.mrProd = st.arn.iter * prodW ctx.g.Mr ∧
  (st.arn.invariant = false → st.arn.V.length = st.arn.iter + 1)

lemma loopInv_init (g : GmresArgs) (arn0 : ArnSt)
    (hinit : arnInit (mkCtx g) = .ok arn0) :
    LoopInv (mkCtx g) (initSt (mkCtx g) arn0) := by
  unfold arnInit at hinit
  split at hinit
  · cases hinit
  · simp only [Except.ok.injEq] at hinit
    subst hinit
    refine ⟨?_, ?_, ?_⟩
    · intro v hv
      by_cases hz : (mkCtx g).MMlbnorm = 0
      · have := mkCtx_xk0_of_eq g hz
        have hv' : (initSt (mkCtx g) _).xk = some v := hv
        rw [show (initSt (mkCtx g)
            ⟨[vdiv (mkCtx g).MMlr0 (mkCtx g).MMlr0norm],
              [vdiv (mkCtx g).Mlr0 (mkCtx g).MMlr0norm], [], 0, false⟩).xk =
            (mkCtx g).xk0 from rfl, this, Option.some.injEq] at hv
        subst hv
        show zeroVec g.b.length = getXk (mkCtx g) _ _ _
        unfold getXk
        simp only [Nat.lt_irrefl 0, if_neg]
        exact (mkCtx_x0_of_eq g hz).symm
      · have := mkCtx_xk0_of_ne g hz
        rw [show (initSt (mkCtx g)
            ⟨[vdiv (mkCtx g).MMlr0 (mkCtx g).MMlr0norm],
              [vdiv (mkCtx g).Mlr0 (mkCtx g).MMlr0norm], [], 0, false⟩).xk =
            (mkCtx g).xk0 from rfl, this] at hv
        cases hv
    · show (mkCtx g).counts0.mrProd = 0 * prodW g.Mr
      rw [Nat.zero_mul]
      rfl
    · intro _
      rfl

lemma loopInv_step (ctx : GmresCtx) (s s2 : LoopSt) (hs : LoopInv ctx s)
    (hg : loopGuard ctx s) (h : gmresStep ctx s = .ok s2) :
    LoopInv ctx s2 := by
  obtain ⟨harn, hR, hy, hmr, hxk, hpy⟩ := gmresStep_ok_spec ctx s s2 h
  have hiter : s2.arn.iter = s.arn.iter + 1 := by
    rw [harn]
    exact arnAdvance_iter ctx.g s.arn
  refine ⟨?_, ?_, ?_⟩
  · intro v hv
    rcases hxk with hnone | hsome
    · rw [hnone] at hv
      cases hv
    · rw [hsome, Option.some.injEq] at hv
      subst hv
      show stepXk ctx s = _
      unfold stepXk stepYk
      rw [harn, hR, hy]
      rw [show (stepArn ctx s).iter = s.arn.iter + 1 from
        arnAdvance_iter ctx.g s.arn]
  · rw [hmr, hiter, hs.2.1, Nat.succ_mul]
  · intro hinv2
    rw [harn] at hinv2 ⊢
    rw [show (stepArn ctx s).V.length = s.arn.V.length + 1 from
        arnAdvance_length ctx.g s.arn hinv2,
      hs.2.2 hg.2.2,
      show (stepArn ctx s).iter = s.arn.iter + 1 from
        arnAdvance_iter ctx.g s.arn]

lemma gmresAssemble_counts_mrProd (ctx : GmresCtx) (st : LoopSt) :
    (gmresAssemble ctx st).counts.mrProd = st.counts.mrProd := by
  unfold gmresAssemble
  dsimp only
  rcases hx : st.xk with _ | v <;>
    simp [counts_add_mrProd, getXkCnt_mrProd]

/-- C6 (amended): the returned solution of a run with `k ≥ 1` iterations
and no invariant-subspace truncation is exactly
`x0 + Mr·(V[:,:k]·c)` with `c` solving the rotated upper-triangular
system `R[:k,:k]·c = y[:k]`; and `Mr` is additionally applied exactly
once per iteration inside the composed operator `Ml·A·Mr` of the Arnoldi
recurrence (`counts.mrProd = k · prodW Mr`), not only at reconstruction
time. -/
theorem solution_reconstruction_formula (g : GmresArgs)
    (out : GmresOutcome) (x : Vec) (h : gmres g = .ok out)
    (hsol : out.sol = some x) (hinv : out.arnInvariant = false)
    (hk : 1 ≤ out.arnIter) :
    x = vadd out.x0Used (precApply g.Mr
      (lincomb g.b.length
        (solveUpper out.Rcols out.arnIter (out.yFinal.take out.arnIter))
        (out.arnV.take out.arnIter))) ∧
    out.counts.mrProd = out.arnIter * prodW g.Mr := by
  obtain ⟨-, arn0, st, hinit, hloop, hout⟩ := gmres_ok_dest g out h
  have hInv : LoopInv (mkCtx g) st :=
    gmresLoop_ok_ind (mkCtx g) (LoopInv (mkCtx g)) (loopInv_step (mkCtx g))
      (mkCtx g).maxiter _ st (loopInv_init g arn0 hinit) hloop
  subst hout
  have hlen : st.arn.V.length = st.arn.iter + 1 := hInv.2.2 hinv
  constructor
  · have hx : x = (gmresAssemble (mkCtx g) st).xkComputed := by
      by_cases hlt : st.resnorms.getLastD 0 < (mkCtx g).g.tol
      · rw [gmresAssemble_sol_some _ _ hlt] at hsol
        exact (Option.some.inj hsol).symm
      · rw [gmresAssemble_sol_none _ _ hlt] at hsol
        cases hsol
    have hxg : (gmresAssemble (mkCtx g) st).xkComputed =
        getXk (mkCtx g) st.arn st.R (st.y.take st.arn.iter) := by
      rcases hcache : st.xk with _ | v
      · unfold gmresAssemble
        dsimp only
        rw [hcache]
      · rw [gmresAssemble_xk_cached _ _ _ hcache]
        exact hInv.1 v hcache
    have hk2 : 0 < st.arn.iter := hk
    have hgetXk : getXk (mkCtx g) st.arn st.R (st.y.take st.arn.iter) =
        vadd (mkCtx g).x0 (precApply g.Mr
          (lincomb g.b.length
            (solveUpper st.R st.arn.iter (st.y.take st.arn.iter))
            st.arn.V.dropLast)) := by
      unfold getXk
      rw [if_pos hk2]
      rfl
    have hdrop : st.arn.V.dropLast = st.arn.V.take st.arn.iter := by
      rw [List.dropLast_eq_take, hlen]
      simp
    rw [hx, hxg, hgetXk, hdrop]
    rfl
  · rw [gmresAssemble_counts_mrProd]
    exact hInv.2.1

/-- Witness for the amended C6 on the run with `Mr = (1/2)·I`: one
iteration, solution `[12/169, 0]`, and `Mr` applied once inside the
recurrence. -/
theorem solution_reconstruction_witness :
    gmres mrArgs = .ok (runOut mrArgs) ∧
      ([(12 : ℚ)/169, 0] =
        vadd (runOut mrArgs).x0Used (precApply mrArgs.Mr
          (lincomb mrArgs.b.length
            (solveUpper (runOut mrArgs).Rcols (runOut mrArgs).arnIter
              ((runOut mrArgs).yFinal.take (runOut mrArgs).arnIter))
            ((runOut mrArgs).arnV.take (runOut mrArgs).arnIter))) ∧
        (runOut mrArgs).counts.mrProd =
          (runOut mrArgs).arnIter * prodW mrArgs.Mr) :=
  ⟨by with_unfolding_all decide,
    solution_reconstruction_formula mrArgs (runOut mrArgs) [(12 : ℚ)/169, 0]
      (by with_unfolding_all decide) (by with_unfolding_all decide)
      (by with_unfolding_all decide) (by with_unfolding_all decide)⟩

/-- Counterexample for C6 as stated: on the run with the genuine right
preconditioner `Mr = (1/2)·I`, which converges after one iteration to the
returned solution `[12/169, 0]`, the instrumented count of `Mr`
applications made inside the composed operator `Ml·A·Mr` of the Arnoldi
recurrence is `1`, not `0` — `Mr` is not applied only at
solution-reconstruction time. -/
theorem mr_inside_recurrence_cex :
    (gmres mrArgs).toOption.map
        (fun o => (o.sol, o.counts.mrProd, o.counts.mrDirect)) =
      some (some [(12 : ℚ)/169, 0], 1, 1) ∧ (1 : Nat) ≠ 0 :=
  ⟨by with_unfolding_all decide, by decide⟩

/-! ## Restarted-solver history concatenation (C8) -/

/-- The accumulation pattern of `_RestartedSolver`: starting from `init`,
each run deletes the accumulated last entry and appends its whole
history. -/
def accOf (init : List ℚ) (hs : List (List ℚ)) : List ℚ :=
  hs.foldl (fun acc h => acc.dropLast ++ h) init

/-- Concatenation of histories with each non-final history's last entry
dropped. -/
def concatDropLast : List (List ℚ) → List ℚ
  | [] => []
  | [r] => r
  | r :: s :: rest => r.dropLast ++ concatDropLast (s :: rest)

lemma accOf_cons (init h : List ℚ) (hs : List (List ℚ)) :
    accOf init (h :: hs) = accOf (init.dropLast ++ h) hs := rfl

lemma accOf_eq_concatDropLast :
    ∀ (hs : List (List ℚ)) (init : List ℚ), hs ≠ [] →
      (∀ h ∈ hs, h ≠ []) →
      accOf init hs = init.dropLast ++ concatDropLast hs := by
  intro hs
  induction hs with
  | nil => intro init hne _; cases hne rfl
  | cons r rest ih =>
    intro init _ hall
    cases rest with
    | nil => rfl
    | cons s rest2 =>
      rw [accOf_cons,
        ih (init.dropLast ++ r) (by simp)
          (fun h hm => hall h (List.mem_cons_of_mem r hm)),
        List.dropLast_append_of_ne_nil init.dropLast
          (hall r (List.mem_cons_self r _)),
        show concatDropLast (r :: s :: rest2) =
          r.dropLast ++ concatDropLast (s :: rest2) from rfl,
        List.append_assoc]

/-- What the restart loop does to the histories: it executes some list of
runs `rs`, appends them to the run log, and folds each run's history into
the accumulators by the delete-last-then-extend pattern (the error
accumulator only when error tracking is on). -/
lemma restartLoop_spec (solver : Option Vec → SolRun) (te : Bool)
    (mr : Nat) :
    ∀ fuel restart st, ∃ rs,
      (restartLoop solver te mr fuel restart st).runs = st.runs ++ rs ∧
      (restartLoop solver te mr fuel restart st).resnorms =
        accOf st.resnorms (rs.map SolRun.resnorms) ∧
      (restartLoop solver te mr fuel restart st).errnorms =
        (if te then accOf st.errnorms (rs.map SolRun.errnorms)
          else st.errnorms) := by
  intro fuel
  induction fuel with
  | zero =>
    intro restart st
    exact ⟨[], by simp [restartLoop], by simp [restartLoop, accOf],
      by cases te <;> simp [restartLoop, accOf]⟩
  | succ n ih =>
    intro restart st
    by_cases hg : restart = 0 ∨
        (st.resnorms.getLastD 0 > st.tol ∧ restart ≤ mr)
    · simp only [restartLoop, if_pos hg]
      obtain ⟨rs, h1, h2, h3⟩ := ih (restart + 1)
        { xk := some (solver st.xk).xk
          tol := (solver st.xk).tol
          resnorms := st.resnorms.dropLast ++ (solver st.xk).resnorms
          errnorms := if te then
              st.errnorms.dropLast ++ (solver st.xk).errnorms
            else st.errnorms
          runs := st.runs ++ [solver st.xk] }
      refine ⟨solver st.xk :: rs, ?_, ?_, ?_⟩
      · rw [h1]
        simp
      · rw [h2]
        rfl
      · rw [h3]
        cases te <;> simp [accOf]
    · simp only [restartLoop, if_neg hg]
      exact ⟨[], by simp, by simp [accOf], by cases te <;> simp [accOf]⟩

/-- Unfold one executing pass of the restart loop. -/
lemma restartLoop_succ_pos (solver : Option Vec → SolRun) (te : Bool)
    (mr fuel restart : Nat) (st : RestSt)
    (hg : restart = 0 ∨
      (st.resnorms.getLastD 0 > st.tol ∧ restart ≤ mr)) :
    restartLoop solver te mr (fuel + 1) restart st =
      restartLoop solver te mr fuel (restart + 1)
        { xk := some (solver st.xk).xk
          tol := (solver st.xk).tol
          resnorms := st.resnorms.dropLast ++ (solver st.xk).resnorms
          errnorms := if te then
              st.errnorms.dropLast ++ (solver st.xk).errnorms
            else st.errnorms
          runs := st.runs ++ [solver st.xk] } := by
  simp only [restartLoop, if_pos hg]

/-- At least one run is always executed. -/
lemma restartedSolver_runs_ne (solver : Option Vec → SolRun) (te : Bool)
    (mr : Nat) (sentinel : ℚ) :
    (restartedSolver solver te mr sentinel).1.runs ≠ [] := by
  show (restartLoop solver te mr (mr + 2) 0
    ⟨none, [sentinel], if te then [sentinel] else [], 0, []⟩).runs ≠ []
  rw [show mr + 2 = (mr + 1) + 1 from rfl,
    restartLoop_succ_pos solver te mr (mr + 1) 0 _ (.inl rfl)]
  obtain ⟨rs, h1, -, -⟩ := restartLoop_spec solver te mr (mr + 1) 1 _
  rw [h1]
  simp

/-- C8 (amended): the accumulated residual history of the restarted
solver equals the concatenation of the executed runs' histories with each
non-final run's *last* entry dropped (the leading `Inf` sentinel being
deleted by the first concatenation); the same holds for the error-norm
history when error tracking is on.  (Each run's history is assumed
nonempty, as an empty one would crash the Python loop's `resnorms[-1]`
read.) -/
theorem restart_history_concat (solver : Option Vec → SolRun) (te : Bool)
    (mr : Nat) (sentinel : ℚ)
    (hres : ∀ r ∈ (restartedSolver solver te mr sentinel).1.runs,
      r.resnorms ≠ []) :
    (restartedSolver solver te mr sentinel).1.resnorms =
      concatDropLast ((restartedSolver solver te mr sentinel).1.runs.map
        SolRun.resnorms) ∧
    (te = true →
      (∀ r ∈ (restartedSolver solver te mr sentinel).1.runs,
        r.errnorms ≠ []) →
      (restartedSolver solver te mr sentinel).1.errnorms =
        concatDropLast ((restartedSolver solver te mr sentinel).1.runs.map
          SolRun.errnorms)) := by
  obtain ⟨rs, h1, h2, h3⟩ := restartLoop_spec solver te mr (mr + 2) 0
    ⟨none, [sentinel], if te then [sentinel] else [], 0, []⟩
  have hruns : (restartedSolver solver te mr sentinel).1.runs = rs := by
    show (restartLoop solver te mr (mr + 2) 0
      ⟨none, [sentinel], if te then [sentinel] else [], 0, []⟩).runs = rs
    rw [h1]
    rfl
  have hne : rs ≠ [] := by
    intro hnil
    exact restartedSolver_runs_ne solver te mr sentinel (by rw [hruns, hnil])
  constructor
  · rw [show (restartedSolver solver te mr sentinel).1.resnorms =
        accOf [sentinel] (rs.map SolRun.resnorms) from h2, hruns,
      accOf_eq_concatDropLast (rs.map SolRun.resnorms) [sentinel]
        (by simpa using hne)
        (by
          intro h hm
          obtain ⟨r, hr, hrfl⟩ := List.mem_map.mp hm
          exact hrfl ▸ hres r (hruns ▸ hr))]
    rfl
  · intro hte hresE
    rw [hruns]
    rw [show (restartedSolver solver te mr sentinel).1.errnorms =
        (if te then accOf (if te then [sentinel] else [])
          (rs.map SolRun.errnorms) else
          (if te then [sentinel] else [])) from h3, hte]
    simp only [if_true, if_pos]
    rw [accOf_eq_concatDropLast (rs.map SolRun.errnorms) [sentinel]
        (by simpa using hne)
        (by
          intro h hm
          obtain ⟨r, hr, hrfl⟩ := List.mem_map.mp hm
          exact hrfl ▸ hresE r (hruns ▸ hr))]
    rfl

/-- An abstract two-run solver: the first run ends at residual `2`, the
second at `1/2` (tolerance `1`). -/
def twoRunSolver : Option Vec → SolRun
  | none => ⟨[9], 1, [5, 2], [7, 8]⟩
  | some _ => ⟨[7], 1, [3, 1/2], [9, 10]⟩

/-- Counterexample for C8 as stated: with two executed runs
`[5, 2]` and `[3, 1/2]` the accumulated history is `[5, 3, 1/2]` (the
previous run's final entry is deleted before each concatenation), which
differs from the claimed "first run's history followed by each subsequent
run's history without its leading entry", `[5, 2, 1/2]`. -/
theorem restart_history_concat_cex :
    (restartedSolver twoRunSolver false 1 100).1.resnorms =
        [5, 3, 1/2] ∧
      (restartedSolver twoRunSolver false 1 100).1.runs.map
          SolRun.resnorms = [[5, 2], [3, 1/2]] ∧
      ([(5 : ℚ), 3, 1/2] ≠ [5, 2] ++ List.drop 1 [(3 : ℚ), 1/2]) :=
  ⟨by with_unfolding_all decide, by with_unfolding_all decide,
    by with_unfolding_all decide⟩

/-- Witness for the amended C8 on the two-run solver (with error
tracking on). -/
theorem restart_history_concat_witness :
    (restartedSolver twoRunSolver true 1 100).1.resnorms =
        concatDropLast
          ((restartedSolver twoRunSolver true 1 100).1.runs.map
            SolRun.resnorms) ∧
      (restartedSolver twoRunSolver true 1 100).1.errnorms =
        concatDropLast
          ((restartedSolver twoRunSolver true 1 100).1.runs.map
            SolRun.errnorms) :=
  ⟨(restart_history_concat twoRunSolver true 1 100
      (by with_unfolding_all decide)).1,
    (restart_history_concat twoRunSolver true 1 100
      (by with_unfolding_all decide)).2 rfl (by with_unfolding_all decide)⟩

/-- The base call with a right-hand side of mismatched dimension. -/
def shapeBadArgs : GmresArgs := { argsBase with b := [1, 0, 0] }

/-- Witness for C4: a 2×2 operator with a 3-vector right-hand side fails
with the shape error. -/
theorem shape_error_iff_witness :
    ¬ shapeOk shapeBadArgs ∧ gmres shapeBadArgs = .error .shape :=
  ⟨by decide, (shape_error_iff_shape_mismatch shapeBadArgs).mpr (by decide)⟩

end Krylov
